import Mathlib

/-!
Verification development for the pdf-csv invoice extraction pipeline
(joaopaulomendes95/pdf-csv, src/main.go).

The Go program is embedded shallowly:

* Go strings are modelled as Lean `String`s / `List Char`; Go's byte-wise
  lexicographic string comparison agrees with code-point comparison on valid
  UTF-8, which is what `lexLt` implements.
* The sort comparator of `main` (lines 109-128) is `lessInvoice`; the call to
  `sort.Slice` is modelled by the deterministic comparison sort
  `sortInvoices` (insertion sort keeping earlier elements in front on ties).
* The regexp collaborator (Go's `regexp` package, external to the repository)
  is modelled by a small pattern type `Pat` with Go-compatible leftmost-first
  matching and capture semantics, together with a compiler `compile` from
  pattern strings covering the syntax the program's configuration uses
  (literals, escapes, classes, groups, alternation, repetition).
  `regexp.MustCompile` panicking is modelled by `Option`.
* `parseInvoice` (lines 166-209) is `parseInvoiceC` (on compiled patterns)
  wrapped by `parseInvoice` which returns `none` when any `MustCompile`
  would panic.
* `loadRegexConfig` (lines 138-149) is modelled on an abstract parsed JSON
  document: `none` for an unreadable file or malformed JSON, otherwise the
  top-level key/value assignments (`encoding/json`: unknown keys ignored,
  missing keys give the zero value, last duplicate wins).
* The worker pool (lines 83-106, 151-164) is modelled as an interleaving
  state machine: a scheduler chooses which enabled action runs next; worker
  identity is irrelevant so the state keeps only how many workers are idle
  or finished plus the multiset of in-flight jobs.
-/

namespace PdfCsv

/-- Characters for which Go's `unicode.IsSpace` (used by `strings.TrimSpace`)
returns true. -/
def goIsSpace (c : Char) : Bool :=
  c = '\t' || c = '\n' || c = Char.ofNat 11 || c = Char.ofNat 12 || c = '\r' || c = ' ' ||
  c = Char.ofNat 0x85 || c = Char.ofNat 0xA0 || c = Char.ofNat 0x1680 ||
  (0x2000 ≤ c.toNat && c.toNat ≤ 0x200A) || c = Char.ofNat 0x2028 || c = Char.ofNat 0x2029 ||
  c = Char.ofNat 0x202F || c = Char.ofNat 0x205F || c = Char.ofNat 0x3000

/-- Model of Go's `strings.TrimSpace`: drop leading and trailing whitespace. -/
def trimSpace (l : List Char) : List Char :=
  ((l.dropWhile goIsSpace).reverse.dropWhile goIsSpace).reverse

/-- Model of Go's `strings.Split` with a one-character separator: the list of
(possibly empty) segments between occurrences of the separator.  As in Go the
result always has length `number of separators + 1`. -/
def splitOnChar (sep : Char) : List Char → List (List Char)
  | [] => [[]]
  | c :: cs =>
    let r := splitOnChar sep cs
    if c = sep then [] :: r
    else
      match r with
      | [] => [[c]]
      | h :: t => (c :: h) :: t

/-- Go's `<` on strings is byte-wise lexicographic comparison, which on valid
UTF-8 agrees with this code-point-wise comparison. -/
def lexLt : List Char → List Char → Bool
  | [], [] => false
  | [], _ :: _ => true
  | _ :: _, [] => false
  | a :: xs, b :: ys => if a < b then true else if b < a then false else lexLt xs ys

/-- Decimal value of a digit string, processed left to right. -/
def digitsValAux : Nat → List Char → Option Nat
  | acc, [] => some acc
  | acc, c :: cs => if c.isDigit then digitsValAux (acc * 10 + (c.toNat - 48)) cs else none

/-- Value of a non-empty all-digit string, `none` otherwise. -/
def digitsVal : List Char → Option Nat
  | [] => none
  | l => digitsValAux 0 l

/-- Model of Go's `strconv.Atoi`: an optional sign followed by decimal digits,
failing on anything else and on values outside the 64-bit signed range. -/
def goAtoi (l : List Char) : Option Int :=
  match l with
  | '+' :: rest => (digitsVal rest).bind fun n =>
      if (n : Int) ≤ (2 : Int) ^ 63 - 1 then some (n : Int) else none
  | '-' :: rest => (digitsVal rest).bind fun n =>
      if (n : Int) ≤ (2 : Int) ^ 63 then some (-(n : Int)) else none
  | _ => (digitsVal l).bind fun n =>
      if (n : Int) ≤ (2 : Int) ^ 63 - 1 then some (n : Int) else none

/-- The extracted record, `struct Invoice` of main.go; the Go zero value has
every field equal to the empty string. -/
structure Invoice where
  fatura : String
  clienteMatricula : String
  dataInicio : String
  valor : String
  prazoMeses : String
  deriving DecidableEq, Repr, Inhabited

/-- The regex pattern strings loaded from the JSON file, `struct RegexConfig`
of main.go. -/
structure RegexConfig where
  fatura : String
  clienteMatricula : String
  dataInicio : String
  valor : String
  prazoMeses : String
  deriving DecidableEq, Repr, Inhabited

/-- The `sort.Slice` comparator of main.go lines 109-128: split both invoice
ids on `/`; if either yields fewer than two segments fall back to string
comparison; otherwise `Atoi` the trimmed second segments, falling back to
string comparison if either fails, else compare the two integers. -/
def lessInvoice (a b : Invoice) : Bool :=
  let faturaI := a.fatura.toList
  let faturaJ := b.fatura.toList
  let partsI := splitOnChar '/' faturaI
  let partsJ := splitOnChar '/' faturaJ
  match partsI, partsJ with
  | _ :: pI :: _, _ :: pJ :: _ =>
    match goAtoi (trimSpace pI), goAtoi (trimSpace pJ) with
    | some numI, some numJ => decide (numI < numJ)
    | _, _ => lexLt faturaI faturaJ
  | _, _ => lexLt faturaI faturaJ

/-- Insert an element into a list, in front of the first position whose
element is not strictly `lessInvoice`-below it. -/
def insertInv (x : Invoice) : List Invoice → List Invoice
  | [] => [x]
  | y :: ys => if lessInvoice y x then y :: insertInv x ys else x :: y :: ys

/-- Model of the collator's `sort.Slice(invoices, less)` call: a deterministic
comparison sort driven by `lessInvoice`.  On inputs that the comparator
totally orders, every correct comparison sort (including Go's) produces this
same sequence. -/
def sortInvoices : List Invoice → List Invoice
  | [] => []
  | x :: xs => insertInv x (sortInvoices xs)

/-- The numeric sort key the comparator tries to use, stated independently of
the comparator itself: the integer parsed from the trimmed second
`/`-separated segment of an invoice id, when there is such a segment and it
parses. -/
def numKey (f : String) : Option Int :=
  match splitOnChar '/' f.toList with
  | _ :: p1 :: _ => goAtoi (trimSpace p1)
  | _ => none

/-- The two-tier comparison rule as the specification words it: numeric
comparison of the two parsed suffixes when both parse, otherwise
lexicographic comparison of the full invoice ids. -/
def claimLess (a b : Invoice) : Bool :=
  match numKey a.fatura, numKey b.fatura with
  | some m, some n => decide (m < n)
  | _, _ => lexLt a.fatura.toList b.fatura.toList

/-- Numeric key of a record, defaulting to 0; meaningful only for records
whose key parses. -/
def keyOf (r : Invoice) : Int :=
  (numKey r.fatura).getD 0

theorem lessInvoice_eq_claimLess (a b : Invoice) :
    lessInvoice a b = claimLess a b := by
  unfold lessInvoice claimLess numKey
  simp only [String.toList]
  rcases h1 : splitOnChar '/' a.fatura.data with _ | ⟨x, _ | ⟨x2, t2⟩⟩ <;>
    rcases h2 : splitOnChar '/' b.fatura.data with _ | ⟨y, _ | ⟨y2, s2⟩⟩ <;>
    simp only [h1, h2] <;> try rfl
  all_goals (split <;> first | rfl | simp_all)

theorem lessInvoice_of_keys {a b : Invoice} {m n : Int}
    (ha : numKey a.fatura = some m) (hb : numKey b.fatura = some n) :
    lessInvoice a b = decide (m < n) := by
  rw [lessInvoice_eq_claimLess]
  unfold claimLess
  rw [ha, hb]

theorem insertInv_perm (x : Invoice) (l : List Invoice) :
    (insertInv x l).Perm (x :: l) := by
  induction l with
  | nil => simp [insertInv]
  | cons y ys ih =>
    unfold insertInv
    by_cases h : lessInvoice y x
    · simp only [h, if_true]
      exact (ih.cons y).trans (List.Perm.swap x y ys)
    · simp [h]

theorem sortInvoices_perm (l : List Invoice) :
    (sortInvoices l).Perm l := by
  induction l with
  | nil => simp [sortInvoices]
  | cons x xs ih =>
    exact (insertInv_perm x (sortInvoices xs)).trans (ih.cons x)

theorem numKey_eq_some_keyOf {r : Invoice} (h : (numKey r.fatura).isSome = true) :
    numKey r.fatura = some (keyOf r) := by
  obtain ⟨v, hv⟩ := Option.isSome_iff_exists.mp h
  rw [hv]
  simp [keyOf, hv]

/-- On records whose keys parse, the comparator is strict comparison of the
numeric keys. -/
theorem lessInvoice_eq_keyOf {a b : Invoice}
    (ha : (numKey a.fatura).isSome = true) (hb : (numKey b.fatura).isSome = true) :
    lessInvoice a b = decide (keyOf a < keyOf b) :=
  lessInvoice_of_keys (numKey_eq_some_keyOf ha) (numKey_eq_some_keyOf hb)

/-- Non-strict order on the numeric keys. -/
def keyLe (a b : Invoice) : Prop := keyOf a ≤ keyOf b

/-- Strict order on the numeric keys. -/
def keyLtP (a b : Invoice) : Prop := keyOf a < keyOf b

theorem insertInv_pairwise_keyLe (x : Invoice) (l : List Invoice)
    (hx : (numKey x.fatura).isSome = true)
    (hl : ∀ r ∈ l, (numKey r.fatura).isSome = true)
    (hs : l.Pairwise keyLe) :
    (insertInv x l).Pairwise keyLe := by
  induction l with
  | nil => simp [insertInv, keyLe]
  | cons y ys ih =>
    have hy : (numKey y.fatura).isSome = true := hl y (by simp)
    have hys : ∀ r ∈ ys, (numKey r.fatura).isSome = true :=
      fun r hr => hl r (by simp [hr])
    rcases List.pairwise_cons.mp hs with ⟨hyys, hsys⟩
    unfold insertInv
    by_cases h : lessInvoice y x
    · simp only [h, if_true]
      refine List.pairwise_cons.mpr ⟨?_, ih hys hsys⟩
      intro r hr
      rcases List.mem_cons.mp ((insertInv_perm x ys).mem_iff.mp hr) with h' | h'
      · rw [lessInvoice_eq_keyOf hy hx] at h
        subst h'
        exact le_of_lt (of_decide_eq_true h)
      · exact hyys r h'
    · simp only [h, if_false]
      rw [lessInvoice_eq_keyOf hy hx] at h
      have hxy : keyOf x ≤ keyOf y := le_of_not_lt (of_decide_eq_false (by simpa using h))
      refine List.pairwise_cons.mpr ⟨?_, hs⟩
      intro r hr
      rcases List.mem_cons.mp hr with h' | h'
      · subst h'; exact hxy
      · exact le_trans hxy (hyys r h')

theorem sortInvoices_pairwise_keyLe (l : List Invoice)
    (hl : ∀ r ∈ l, (numKey r.fatura).isSome = true) :
    (sortInvoices l).Pairwise keyLe := by
  induction l with
  | nil => simp [sortInvoices]
  | cons x xs ih =>
    have hx := hl x (by simp)
    have hxs : ∀ r ∈ xs, (numKey r.fatura).isSome = true :=
      fun r hr => hl r (by simp [hr])
    exact insertInv_pairwise_keyLe x (sortInvoices xs) hx
      (fun r hr => hxs r ((sortInvoices_perm xs).mem_iff.mp hr)) (ih hxs)

theorem sortInvoices_pairwise_keyLt (l : List Invoice)
    (hkeys : ∀ r ∈ l, (numKey r.fatura).isSome = true)
    (hdist : l.Pairwise fun a b => numKey a.fatura ≠ numKey b.fatura) :
    (sortInvoices l).Pairwise keyLtP := by
  have pe := sortInvoices_perm l
  have hk : ∀ r ∈ sortInvoices l, (numKey r.fatura).isSome = true :=
    fun r hr => hkeys r (pe.mem_iff.mp hr)
  have hle := sortInvoices_pairwise_keyLe l hkeys
  have hne : (sortInvoices l).Pairwise (fun a b => numKey a.fatura ≠ numKey b.fatura) :=
    (pe.pairwise_iff fun h => Ne.symm h).mpr hdist
  refine (hle.and hne).imp_of_mem ?_
  intro a b ha hb hab
  rcases hab with ⟨hab1, hab2⟩
  rcases lt_or_eq_of_le hab1 with h | h
  · exact h
  · exfalso
    apply hab2
    rw [numKey_eq_some_keyOf (hk a ha), numKey_eq_some_keyOf (hk b hb), h]

/-- C1 (counterexample): the collator's ordering is not a function of the
record multiset alone.  Two distinct records sharing the invoice id "K" are a
permutation of each other in either order, yet sorting the two orders yields
different output sequences, so re-running the sort on a permuted input list
does not always yield the same output sequence. -/
theorem C1_sort_not_multiset_function :
    ([⟨"K", "", "", "1", ""⟩, ⟨"K", "", "", "2", ""⟩] : List Invoice).Perm
      [⟨"K", "", "", "2", ""⟩, ⟨"K", "", "", "1", ""⟩] ∧
    sortInvoices [⟨"K", "", "", "1", ""⟩, ⟨"K", "", "", "2", ""⟩] ≠
      sortInvoices [⟨"K", "", "", "2", ""⟩, ⟨"K", "", "", "1", ""⟩] := by
  constructor
  · exact List.Perm.swap _ _ _
  · decide

/-- C1 (amended): the collator's ordering is deterministic and yields a
permutation of its input, and it is a total function of the record multiset
whenever every record's invoiceId has a parseable numeric suffix and those
suffixes are pairwise distinct: sorting any two permutations of such a record
list yields the same output sequence.  (With equal or unparseable keys the
relative order of the tied records is not determined by the multiset, as the
counterexample shows, matching the spec's caveat that equal-key order must
not be asserted.) -/
theorem C1_sort_deterministic_on_distinct_keys (l₁ l₂ : List Invoice)
    (hperm : l₁.Perm l₂)
    (hkeys : ∀ r ∈ l₁, (numKey r.fatura).isSome = true)
    (hdist : l₁.Pairwise fun a b => numKey a.fatura ≠ numKey b.fatura) :
    sortInvoices l₁ = sortInvoices l₂ ∧ (sortInvoices l₁).Perm l₁ := by
  have hkeys₂ : ∀ r ∈ l₂, (numKey r.fatura).isSome = true :=
    fun r hr => hkeys r (hperm.mem_iff.mpr hr)
  have hdist₂ : l₂.Pairwise fun a b => numKey a.fatura ≠ numKey b.fatura :=
    (hperm.pairwise_iff fun h => Ne.symm h).mp hdist
  have hs₁ := sortInvoices_pairwise_keyLt l₁ hkeys hdist
  have hs₂ := sortInvoices_pairwise_keyLt l₂ hkeys₂ hdist₂
  have hpp : (sortInvoices l₁).Perm (sortInvoices l₂) :=
    ((sortInvoices_perm l₁).trans hperm).trans (sortInvoices_perm l₂).symm
  haveI : IsAntisymm Invoice keyLtP :=
    ⟨fun a b h1 h2 => absurd (lt_trans h1 h2) (lt_irrefl _)⟩
  exact ⟨List.eq_of_perm_of_sorted hpp hs₁ hs₂, sortInvoices_perm l₁⟩

/-- C1 (witness): the amended determinism theorem applied to the two orders of
two records with distinct parseable numeric suffixes. -/
theorem C1_sort_deterministic_witness :
    sortInvoices [⟨"FT 2023/12345", "", "", "", ""⟩, ⟨"FT 2023/1001", "", "", "", ""⟩] =
      sortInvoices [⟨"FT 2023/1001", "", "", "", ""⟩, ⟨"FT 2023/12345", "", "", "", ""⟩] :=
  (C1_sort_deterministic_on_distinct_keys _ _
    (by decide) (by decide) (by decide)).1

/-- C2: the comparison between any two records uses numeric comparison of the
integers parsed from the trimmed second '/'-separated segments only when both
sides have such a segment and both parse; otherwise that pair is compared by
lexicographic string comparison of the full invoiceId (this is `claimLess`).
In particular "FT 2023/1001" sorts before "FT 2023/12345" regardless of input
order, and "X" versus "Y/abc" fall back to lexicographic comparison in both
directions. -/
theorem C2_two_tier_comparison :
    (∀ a b : Invoice, lessInvoice a b = claimLess a b) ∧
    sortInvoices [⟨"FT 2023/12345", "", "", "", ""⟩, ⟨"FT 2023/1001", "", "", "", ""⟩] =
      [⟨"FT 2023/1001", "", "", "", ""⟩, ⟨"FT 2023/12345", "", "", "", ""⟩] ∧
    sortInvoices [⟨"FT 2023/1001", "", "", "", ""⟩, ⟨"FT 2023/12345", "", "", "", ""⟩] =
      [⟨"FT 2023/1001", "", "", "", ""⟩, ⟨"FT 2023/12345", "", "", "", ""⟩] ∧
    lessInvoice ⟨"X", "", "", "", ""⟩ ⟨"Y/abc", "", "", "", ""⟩ =
      lexLt "X".toList "Y/abc".toList ∧
    lessInvoice ⟨"Y/abc", "", "", "", ""⟩ ⟨"X", "", "", "", ""⟩ =
      lexLt "Y/abc".toList "X".toList :=
  ⟨fun a b => lessInvoice_eq_claimLess a b, by decide, by decide, by decide, by decide⟩

/-! ### Model of the regexp collaborator

Go's `regexp` package is external to the repository.  It is modelled by a
small pattern type with Go-compatible semantics: leftmost match position,
backtracking preference order (first alternative first, greedy repetition
longest first), one capture slot per group with the last occurrence winning,
and non-participating groups reported as empty strings. -/

/-- Patterns of the modelled subset of regexp syntax. -/
inductive Pat where
  | emp
  | lit (c : Char)
  | cls (f : Char → Bool)
  | dot
  | seq (p q : Pat)
  | alt (p q : Pat)
  | star (p : Pat)
  | group (n : Nat) (p : Pat)
  deriving Inhabited

/-- All ways `p` can match a prefix of `s`, as (remaining suffix, captures)
pairs in backtracking preference order, structurally recursive on the first
argument so that the kernel can evaluate it.  Every recursion step either
descends into the pattern tree (at most `psize p` consecutive such steps)
or follows a repetition iteration that consumed at least one character (the
`filter` enforces the progress; an iteration that consumes nothing ends the
loop, as in Go), so `matchFuel` below always suffices and the first
argument is not a semantic approximation. -/
def matchF : Nat → Pat → List Char → List (List Char × List (Nat × List Char))
  | 0, _, _ => []
  | _ + 1, .emp, s => [(s, [])]
  | _ + 1, .lit c, s =>
    match s with
    | [] => []
    | x :: xs => if x = c then [(xs, [])] else []
  | _ + 1, .cls f, s =>
    match s with
    | [] => []
    | x :: xs => if f x then [(xs, [])] else []
  | _ + 1, .dot, s =>
    match s with
    | [] => []
    | x :: xs => if x = '\n' then [] else [(xs, [])]
  | fuel + 1, .seq p q, s =>
    (matchF fuel p s).flatMap fun r =>
      (matchF fuel q r.1).map fun r2 => (r2.1, r.2 ++ r2.2)
  | fuel + 1, .alt p q, s => matchF fuel p s ++ matchF fuel q s
  | fuel + 1, .star p, s =>
    ((matchF fuel p s).filter fun r => r.1.length < s.length).flatMap
      (fun r => (matchF fuel (.star p) r.1).map fun r2 => (r2.1, r.2 ++ r2.2)) ++ [(s, [])]
  | fuel + 1, .group n p, s =>
    (matchF fuel p s).map fun r => (r.1, (n, s.take (s.length - r.1.length)) :: r.2)

/-- Executable size of a pattern. -/
def Pat.psize : Pat → Nat
  | .emp => 1
  | .lit _ => 1
  | .cls _ => 1
  | .dot => 1
  | .seq p q => p.psize + q.psize + 1
  | .alt p q => p.psize + q.psize + 1
  | .star p => p.psize + 1
  | .group _ p => p.psize + 1

/-- Recursion bound for `matchF`: one unit per character that a repetition
iteration can consume, times the pattern size for the tree descents in
between, with slack. -/
def matchFuel (p : Pat) (s : List Char) : Nat :=
  (s.length + 1) * (p.psize + 2)

/-- The matcher: all prefix matches of `p` on `s` in preference order. -/
def matchC (p : Pat) (s : List Char) : List (List Char × List (Nat × List Char)) :=
  matchF (matchFuel p s) p s

theorem matchFuel_pos (p : Pat) (s : List Char) : 0 < matchFuel p s := by
  unfold matchFuel
  exact Nat.mul_pos (by omega) (by omega)

theorem matchC_emp (l : List Char) : matchC .emp l = [(l, [])] := by
  unfold matchC
  rcases hn : matchFuel .emp l with _ | k
  · exact absurd hn (by have := matchFuel_pos .emp l; omega)
  · rfl

theorem matchC_lit (c : Char) (l : List Char) :
    matchC (.lit c) l =
      match l with
      | [] => []
      | x :: xs => if x = c then [(xs, [])] else [] := by
  unfold matchC
  rcases hn : matchFuel (.lit c) l with _ | k
  · exact absurd hn (by have := matchFuel_pos (.lit c) l; omega)
  · rfl

/-- First match of `p` at the start of `s`, in preference order. -/
def matchHead (p : Pat) (s : List Char) : Option (List Char × List (Nat × List Char)) :=
  (matchC p s).head?

/-- Leftmost match: try start positions left to right, returning the first
position's preferred match together with that position. -/
def findFrom (p : Pat) : List Char → Option ((List Char × List (Nat × List Char)) × Nat)
  | [] => (matchHead p []).map fun r => (r, 0)
  | c :: cs =>
    match matchHead p (c :: cs) with
    | some r => some (r, 0)
    | none => (findFrom p cs).map fun ri => (ri.1, ri.2 + 1)

/-- Capture lookup; when a group matched several times (under repetition) Go
keeps the last occurrence, hence the reversed lookup. -/
def capLookup (caps : List (Nat × List Char)) (n : Nat) : Option (List Char) :=
  caps.reverse.lookup n

/-- A compiled regular expression: the pattern and its number of capturing
groups (Go's `Regexp.NumSubexp`). -/
structure Re where
  pat : Pat
  nsub : Nat
  deriving Inhabited

/-- Go's `FindStringSubmatch`: the empty list for no match, otherwise the full
match followed by one entry per capturing group, with `""` for groups that
did not participate. -/
def goFindStringSubmatch (re : Re) (s : String) : List String :=
  match findFrom re.pat s.toList with
  | none => []
  | some (r, i) =>
    let sub := s.toList.drop i
    String.mk (sub.take (sub.length - r.1.length)) ::
      (List.range re.nsub).map fun k => String.mk ((capLookup r.2 (k + 1)).getD [])

/-- Go's `Regexp.ReplaceAllString` with a plain replacement string: replace
every non-overlapping leftmost match, advancing one character after an empty
match.  The first argument only bounds the recursion; `length + 1` always
suffices and is what `goReplaceAll` passes. -/
def replaceAllAux (p : Pat) (rep : List Char) : Nat → List Char → List Char
  | 0, s => s
  | n + 1, s =>
    match findFrom p s with
    | none => s
    | some (r, i) =>
      let sub := s.drop i
      if sub.length - r.1.length = 0 then
        match r.1 with
        | [] => s.take i ++ rep
        | c :: cs => s.take i ++ rep ++ [c] ++ replaceAllAux p rep n cs
      else s.take i ++ rep ++ replaceAllAux p rep n r.1

/-- Replace every non-overlapping leftmost match of `p` in `s` by `rep`. -/
def goReplaceAll (p : Pat) (rep : List Char) (s : List Char) : List Char :=
  replaceAllAux p rep (s.length + 1) s

/-- The global `reValorCleanerDot = regexp.MustCompile` of the pattern
backslash-dot (main.go line 49), which matches exactly a literal dot. -/
def reValorCleanerDot : Pat := .lit '.'

/-- The global `reValorCleanerComma` of main.go line 50: compiled by the
program but never used by `parseInvoice`. -/
def reValorCleanerComma : Pat := .lit ','

/-! ### Model of regexp.Compile / MustCompile

A recursive-descent parser for the modelled syntax subset: literals, `.`,
escapes (Perl classes and escaped punctuation), character classes with
ranges and negation, capturing and `?:` groups, alternation, and the
repetition operators `*`, `+`, `?`, and brace bounds (capped at 1000, as in
RE2).  Anchors, flags and the remaining RE2 syntax are outside the subset
and are rejected.  `none` models a compilation error, on which
`regexp.MustCompile` panics. -/

/-- Go's Perl class backslash-d. -/
def isDigitGo (c : Char) : Bool := '0' ≤ c && c ≤ '9'

/-- Go's Perl class backslash-s, which is the set tab, newline, form feed,
carriage return, space. -/
def isPerlSpace (c : Char) : Bool :=
  c = '\t' || c = '\n' || c = Char.ofNat 12 || c = '\r' || c = ' '

/-- Go's Perl class backslash-w. -/
def isWordChar (c : Char) : Bool :=
  isDigitGo c || ('A' ≤ c && c ≤ 'Z') || ('a' ≤ c && c ≤ 'z') || c = '_'

/-- Result of parsing one escape sequence: a character class or a literal. -/
inductive Esc where
  | cls (f : Char → Bool)
  | ch (c : Char)

/-- Parse the character after a backslash.  Unknown alphanumeric escapes are
errors; escaped punctuation is the literal character. -/
def parseEsc (c : Char) : Option Esc :=
  if c = 'd' then some (.cls isDigitGo)
  else if c = 'D' then some (.cls fun x => !isDigitGo x)
  else if c = 's' then some (.cls isPerlSpace)
  else if c = 'S' then some (.cls fun x => !isPerlSpace x)
  else if c = 'w' then some (.cls isWordChar)
  else if c = 'W' then some (.cls fun x => !isWordChar x)
  else if c = 'n' then some (.ch '\n')
  else if c = 't' then some (.ch '\t')
  else if c = 'r' then some (.ch '\r')
  else if c = 'f' then some (.ch (Char.ofNat 12))
  else if c = 'v' then some (.ch (Char.ofNat 11))
  else if c = 'a' then some (.ch (Char.ofNat 7))
  else if c.isAlphanum then none
  else some (.ch c)

/-- Parse the items of a character class up to the closing bracket, folding
them into one predicate.  Errors on a missing closing bracket or an inverted
range.  Fuelled; callers pass more fuel than the input length. -/
def parseClassItems : Nat → List Char → (Char → Bool) → Option ((Char → Bool) × List Char)
  | 0, _, _ => none
  | _ + 1, [], _ => none
  | _ + 1, ']' :: rest, acc => some (acc, rest)
  | fuel + 1, '\\' :: e :: rest, acc =>
    match parseEsc e with
    | some (.cls f) => parseClassItems fuel rest fun c => acc c || f c
    | some (.ch d) => parseClassItems fuel rest fun c => acc c || c = d
    | none => none
  | _ + 1, ['\\'], _ => none
  | fuel + 1, a :: '-' :: b :: rest, acc =>
    if b = ']' then
      -- trailing '-' is a literal: a, then '-', then the class ends
      some (fun c => acc c || c = a || c = '-', rest)
    else if a ≤ b then
      parseClassItems fuel rest fun c => acc c || (a ≤ c && c ≤ b)
    else none
  | fuel + 1, a :: rest, acc => parseClassItems fuel rest fun c => acc c || c = a

/-- Parse brace repetition bounds after the opening brace: digits, an
optional comma with optional upper bound, and the closing brace.  Returns
(lower, upper?, rest); `none` upper means unbounded. -/
def parseRepBounds (l : List Char) : Option (Nat × Option Nat × List Char) :=
  let ds := l.takeWhile isDigitGo
  let rest := l.dropWhile isDigitGo
  match digitsVal ds with
  | none => none
  | some lo =>
    match rest with
    | '}' :: r => some (lo, some lo, r)
    | ',' :: '}' :: r => some (lo, none, r)
    | ',' :: rest2 =>
      let ds2 := rest2.takeWhile isDigitGo
      let rest3 := rest2.dropWhile isDigitGo
      match digitsVal ds2, rest3 with
      | some hi, '}' :: r => some (lo, some hi, r)
      | _, _ => none
    | _ => none

/-- Sequence two patterns, dropping empty sides. -/
def seqP : Pat → Pat → Pat
  | .emp, q => q
  | p, .emp => p
  | p, q => .seq p q

/-- `n` mandatory copies of a pattern. -/
def repExact : Nat → Pat → Pat
  | 0, _ => .emp
  | 1, p => p
  | n + 2, p => .seq p (repExact (n + 1) p)

/-- Up to `n` optional copies of a pattern, greedy. -/
def repOpt : Nat → Pat → Pat
  | 0, _ => .emp
  | n + 1, p => .alt (.seq p (repOpt n p)) .emp

/-- Whether the next character starts another repetition operator (an error
directly after one), including valid brace bounds. -/
def repOpFollows (l : List Char) : Bool :=
  match l with
  | '*' :: _ => true
  | '+' :: _ => true
  | '?' :: _ => true
  | '{' :: rest => (parseRepBounds rest).isSome
  | _ => false

/-- Apply a repetition operator with bounds (lower, upper?) to an atom,
enforcing the RE2 cap of 1000. -/
def applyBounds (a : Pat) (lo : Nat) (hi : Option Nat) : Option Pat :=
  if 1000 < lo then none
  else
    match hi with
    | none => some (seqP (repExact lo a) (.star a))
    | some h =>
      if 1000 < h then none
      else if h < lo then none
      else some (seqP (repExact lo a) (repOpt (h - lo) a))

/-- Nonterminal selector for the recursive-descent parser: an alternation,
a concatenation, one atom with its postfix operator, or one bare atom. -/
inductive PMode where
  | degAlt
  | degConcat
  | degRep
  | degAtom

/-- The recursive-descent parser, one fuelled function over the four
nonterminals so that it is structurally recursive (and kernel-evaluable).
State: remaining input and next group number. -/
def parseRx : Nat → PMode → List Char → Nat → Option (Pat × List Char × Nat)
  | 0, _, _, _ => none
  | fuel + 1, .degAlt, l, g =>
    match parseRx fuel .degConcat l g with
    | none => none
    | some (p, l2, g2) =>
      match l2 with
      | '|' :: rest =>
        match parseRx fuel .degAlt rest g2 with
        | none => none
        | some (q, l3, g3) => some (.alt p q, l3, g3)
      | _ => some (p, l2, g2)
  | fuel + 1, .degConcat, l, g =>
    match l with
    | [] => some (.emp, l, g)
    | ')' :: _ => some (.emp, l, g)
    | '|' :: _ => some (.emp, l, g)
    | _ =>
      match parseRx fuel .degRep l g with
      | none => none
      | some (p, l2, g2) =>
        match parseRx fuel .degConcat l2 g2 with
        | none => none
        | some (q, l3, g3) => some (seqP p q, l3, g3)
  | fuel + 1, .degRep, l, g =>
    -- one atom followed by at most one repetition operator; a second
    -- immediately following repetition operator is an error, as in RE2
    match parseRx fuel .degAtom l g with
    | none => none
    | some (a, l2, g2) =>
      match l2 with
      | '*' :: rest => if repOpFollows rest then none else some (.star a, rest, g2)
      | '+' :: rest =>
        if repOpFollows rest then none else some (.seq a (.star a), rest, g2)
      | '?' :: rest =>
        if repOpFollows rest then none else some (.alt a .emp, rest, g2)
      | '{' :: rest =>
        match parseRepBounds rest with
        | none => some (a, l2, g2)   -- not a valid bound: the brace is a literal atom
        | some (lo, hi, rest2) =>
          if repOpFollows rest2 then none
          else
            match applyBounds a lo hi with
            | none => none
            | some p => some (p, rest2, g2)
      | _ => some (a, l2, g2)
  | fuel + 1, .degAtom, l, g =>
    match l with
    | [] => none
    | '(' :: '?' :: ':' :: rest =>
      match parseRx fuel .degAlt rest g with
      | some (p, ')' :: rest2, g2) => some (p, rest2, g2)
      | _ => none
    | '(' :: '?' :: _ => none
    | '(' :: rest =>
      match parseRx fuel .degAlt rest (g + 1) with
      | some (p, ')' :: rest2, g2) => some (.group g p, rest2, g2)
      | _ => none
    | '[' :: '^' :: rest =>
      if rest.head? = some ']' then none
      else
        match parseClassItems (fuel + 1) rest (fun _ => false) with
        | some (f, rest2) => some (.cls fun c => !f c, rest2, g)
        | none => none
    | '[' :: rest =>
      if rest.head? = some ']' then none
      else
        match parseClassItems (fuel + 1) rest (fun _ => false) with
        | some (f, rest2) => some (.cls f, rest2, g)
        | none => none
    | '\\' :: e :: rest =>
      match parseEsc e with
      | some (.cls f) => some (.cls f, rest, g)
      | some (.ch c) => some (.lit c, rest, g)
      | none => none
    | ['\\'] => none
    | '.' :: rest => some (.dot, rest, g)
    | '^' :: _ => none
    | '$' :: _ => none
    | '*' :: _ => none
    | '+' :: _ => none
    | '?' :: _ => none
    | '{' :: rest =>
      match parseRepBounds rest with
      | some _ => none               -- valid bound with nothing to repeat
      | none => some (.lit '{', rest, g)
    | c :: rest => some (.lit c, rest, g)

/-- Model of `regexp.Compile`: parse the whole pattern; group numbers are
assigned in order of opening parentheses starting at 1, and `nsub` is the
number of groups.  `none` models a compile error (`MustCompile` panic). -/
def compile (s : String) : Option Re :=
  match parseRx (s.length * 8 + 32) .degAlt s.toList 1 with
  | some (p, [], g) => some ⟨p, g - 1⟩
  | _ => none

/-! ### The field extractor (parseInvoice) and the rule-set loader -/

/-- The fixed, non-configurable registration-code pattern string compiled at
main.go line 171. -/
def matriculaPatternStr : String :=
  "matricula\\s+([A-Z0-9]\x7b2\x7d-[A-Z0-9]\x7b2\x7d-[A-Z0-9]\x7b2\x7d)"

/-- The six regexes compiled by parseInvoice (main.go lines 169-174). -/
structure CompiledCfg where
  reFatura : Re
  reCliente : Re
  reMatricula : Re
  reDataInicio : Re
  reValor : Re
  rePrazoMeses : Re
  deriving Inhabited

/-- Compile the six patterns of parseInvoice; `none` when any MustCompile
call would panic. -/
def compileCfg (cfg : RegexConfig) : Option CompiledCfg :=
  match compile cfg.fatura, compile cfg.clienteMatricula, compile matriculaPatternStr,
        compile cfg.dataInicio, compile cfg.valor, compile cfg.prazoMeses with
  | some a, some b, some c, some d, some e, some f => some ⟨a, b, c, d, e, f⟩
  | _, _, _, _, _, _ => none

/-- The body of parseInvoice (main.go lines 176-208) over compiled patterns:
each field is filled from index 1 of the corresponding FindStringSubmatch
result when that result has more than one entry, the date is reassembled as
group3-group2-group1 when the result has more than three entries, the amount
has all dots removed by `reValorCleanerDot`, and the client/registration
field composes its two sources as in the source's if/else-if chain. -/
def parseInvoiceC (R : CompiledCfg) (text : String) : Invoice :=
  let fatura :=
    match goFindStringSubmatch R.reFatura text with
    | _ :: m1 :: _ => m1
    | _ => ""
  let clienteMatricula :=
    match goFindStringSubmatch R.reCliente text, goFindStringSubmatch R.reMatricula text with
    | _ :: c :: _, _ :: m :: _ => c ++ "/" ++ m
    | _ :: c :: _, _ => c
    | _, _ :: m :: _ => m
    | _, _ => ""
  let dataInicio :=
    match goFindStringSubmatch R.reDataInicio text with
    | _ :: g1 :: g2 :: g3 :: _ => g3 ++ "-" ++ g2 ++ "-" ++ g1
    | _ => ""
  let valor :=
    match goFindStringSubmatch R.reValor text with
    | _ :: v :: _ => String.mk (goReplaceAll reValorCleanerDot [] v.toList)
    | _ => ""
  let prazoMeses :=
    match goFindStringSubmatch R.rePrazoMeses text with
    | _ :: m1 :: _ => m1
    | _ => ""
  ⟨fatura, clienteMatricula, dataInicio, valor, prazoMeses⟩

/-- parseInvoice of main.go: compile the six patterns (the source does so on
every call) and build the record; `none` models the MustCompile panic on an
uncompilable pattern, which kills the process. -/
def parseInvoice (text : String) (cfg : RegexConfig) : Option Invoice :=
  (compileCfg cfg).map fun R => parseInvoiceC R text

/-- A JSON value as far as the model needs to distinguish: a string, or a
value of any other type. -/
inductive JsonVal where
  | str (s : String)
  | nonString
  deriving DecidableEq, Repr

/-- Lookup in the parsed object with the last occurrence of a duplicate key
winning, as in encoding/json. -/
def jsonLookup (kvs : List (String × JsonVal)) (k : String) : Option JsonVal :=
  match kvs with
  | [] => none
  | (k2, v) :: rest =>
    match jsonLookup rest k with
    | some v2 => some v2
    | none => if k2 = k then some v else none

/-- One struct field of the unmarshalled RegexConfig: a missing key gives the
Go zero value, a present non-string value is an unmarshalling type error. -/
def jsonStringField (kvs : List (String × JsonVal)) (k : String) : Except Unit String :=
  match jsonLookup kvs k with
  | none => .ok ""
  | some (.str s) => .ok s
  | some .nonString => .error ()

/-- Model of loadRegexConfig (main.go lines 138-149).  The input is the
outcome of reading and parsing the file: `none` for a read error or
malformed JSON, otherwise the top-level object's assignments.  The five
fields are unmarshalled by their JSON tags; no pattern is inspected or
compiled here. -/
def loadRegexConfig : Option (List (String × JsonVal)) → Except Unit RegexConfig
  | none => .error ()
  | some kvs =>
    match jsonStringField kvs "fatura", jsonStringField kvs "cliente_matricula",
          jsonStringField kvs "data_inicio", jsonStringField kvs "valor",
          jsonStringField kvs "prazo_meses" with
  | .ok f, .ok c, .ok d, .ok v, .ok p => .ok ⟨f, c, d, v, p⟩
  | _, _, _, _, _ => .error ()

/-- First capture group of a FindStringSubmatch result, when the result has
more than one entry. -/
def grp1 : List String → Option String
  | _ :: g :: _ => some g
  | _ => none

/-- The compiled fixed registration pattern. -/
def matriculaRe : Re := (compile matriculaPatternStr).getD default

/-- The registration-code part of the client field: the first capture group
of the fixed pattern's leftmost match, or empty. -/
def matriculaOnly (text : String) : String :=
  match goFindStringSubmatch matriculaRe text with
  | _ :: m :: _ => m
  | _ => ""

/-! ### Supporting lemmas about the regexp model -/

/-- Split a list at the first occurrence of a character. -/
def splitFirst (c : Char) : List Char → Option (List Char × List Char)
  | [] => none
  | x :: xs =>
    if x = c then some ([], xs)
    else (splitFirst c xs).map fun pr => (x :: pr.1, pr.2)

theorem matchHead_lit (c : Char) (l : List Char) :
    matchHead (.lit c) l =
      match l with
      | [] => none
      | x :: xs => if x = c then some (xs, []) else none := by
  cases l with
  | nil => simp [matchHead, matchC_lit]
  | cons x xs => by_cases h : x = c <;> simp [matchHead, matchC_lit, h]

theorem findFrom_lit (c : Char) (l : List Char) :
    findFrom (.lit c) l = (splitFirst c l).map fun pr => ((pr.2, []), pr.1.length) := by
  induction l with
  | nil => simp [findFrom, matchHead_lit, splitFirst]
  | cons x xs ih =>
    by_cases h : x = c
    · simp [findFrom, matchHead_lit, splitFirst, h]
    · simp only [findFrom, matchHead_lit, splitFirst, h, if_false, if_neg h, ih]
      cases splitFirst c xs <;> simp

theorem splitFirst_none {c : Char} {l : List Char} (h : splitFirst c l = none) :
    l.filter (fun x => x ≠ c) = l := by
  induction l with
  | nil => rfl
  | cons x xs ih =>
    unfold splitFirst at h
    by_cases hx : x = c
    · simp [hx] at h
    · rw [if_neg hx] at h
      have hxs : splitFirst c xs = none := by
        rcases hsf : splitFirst c xs with _ | pr
        · rfl
        · rw [hsf] at h; simp at h
      rw [List.filter_cons_of_pos (by simp [hx]), ih hxs]

theorem splitFirst_some {c : Char} :
    ∀ {l pre post : List Char}, splitFirst c l = some (pre, post) →
      l = pre ++ c :: post ∧ pre.filter (fun x => x ≠ c) = pre := by
  intro l
  induction l with
  | nil => intro pre post h; simp [splitFirst] at h
  | cons x xs ih =>
    intro pre post h
    unfold splitFirst at h
    by_cases hx : x = c
    · rw [if_pos hx] at h
      simp at h
      rcases h with ⟨h1, h2⟩
      subst h1; subst h2; subst hx
      simp
    · rw [if_neg hx] at h
      rcases hsf : splitFirst c xs with _ | ⟨⟨pr1, pr2⟩⟩ <;> rw [hsf] at h <;> simp at h
      rcases h with ⟨h1, h2⟩
      rcases ih hsf with ⟨ihl, ihf⟩
      subst h2
      constructor
      · rw [← h1, ihl]; simp
      · rw [← h1, List.filter_cons_of_pos (by simp [hx]), ihf]

theorem replaceAllAux_lit_filter (c : Char) :
    ∀ (n : Nat) (l : List Char), l.length < n →
      replaceAllAux (.lit c) [] n l = l.filter fun x => x ≠ c := by
  intro n
  induction n with
  | zero => intro l h; exact absurd h (by omega)
  | succ n ih =>
    intro l hl
    unfold replaceAllAux
    rw [findFrom_lit]
    rcases hsf : splitFirst c l with _ | ⟨⟨pre, post⟩⟩
    · simp only [Option.map_none]
      exact (splitFirst_none hsf).symm
    · rcases splitFirst_some hsf with ⟨hdecomp, hpre⟩
      subst hdecomp
      have hdrop : ((pre ++ c :: post).drop pre.length) = c :: post := by
        rw [List.drop_left]
      have htake : ((pre ++ c :: post).take pre.length) = pre := by
        rw [List.take_left]
      have hlen2 : post.length < n := by
        have hl2 : (pre ++ c :: post).length = pre.length + post.length + 1 := by
          simp; omega
        omega
      simp only [Option.map_some']
      rw [hdrop, htake, if_neg (by simp)]
      rw [ih post hlen2, List.filter_append, hpre,
        List.filter_cons_of_neg (by simp)]
      simp

theorem goReplaceAll_lit_filter (c : Char) (l : List Char) :
    goReplaceAll (.lit c) [] l = l.filter fun x => x ≠ c :=
  replaceAllAux_lit_filter c (l.length + 1) l (Nat.lt_succ_self _)

theorem findFrom_emp (l : List Char) : findFrom .emp l = some ((l, []), 0) := by
  cases l <;> simp [findFrom, matchHead, matchC_emp]

theorem goFindStringSubmatch_emp (s : String) :
    goFindStringSubmatch ⟨.emp, 0⟩ s = [""] := by
  unfold goFindStringSubmatch
  rw [findFrom_emp]
  simp

theorem goFindStringSubmatch_length (re : Re) (s : String)
    (h : goFindStringSubmatch re s ≠ []) :
    (goFindStringSubmatch re s).length = re.nsub + 1 := by
  unfold goFindStringSubmatch at h ⊢
  rcases hf : findFrom re.pat s.toList with _ | ⟨r, i⟩
  · rw [hf] at h; simp at h
  · simp

theorem findFrom_leftmost (p : Pat) :
    ∀ (s : List Char) (r : List Char × List (Nat × List Char)) (i : Nat),
      findFrom p s = some (r, i) →
      (∀ j, j < i → matchC p (s.drop j) = []) ∧ (matchC p (s.drop i)).head? = some r := by
  intro s
  induction s with
  | nil =>
    intro r i h
    unfold findFrom at h
    rcases hm : matchHead p [] with _ | r0 <;> rw [hm] at h <;> simp at h
    rcases h with ⟨h1, h2⟩
    subst h1; subst h2
    exact ⟨fun j hj => absurd hj (by omega), hm⟩
  | cons c cs ih =>
    intro r i h
    unfold findFrom at h
    rcases hm : matchHead p (c :: cs) with _ | r0 <;> rw [hm] at h
    · rcases hf : findFrom p cs with _ | ⟨r2, i2⟩ <;> rw [hf] at h <;> simp at h
      rcases h with ⟨h1, h2⟩
      subst h1; subst h2
      rcases ih r2 i2 hf with ⟨ihmin, ihhead⟩
      constructor
      · intro j hj
        cases j with
        | zero =>
          have : (matchC p (c :: cs)).head? = none := hm
          simpa [List.head?_eq_none_iff] using this
        | succ k =>
          have : (c :: cs).drop (k + 1) = cs.drop k := by simp
          rw [this]
          exact ihmin k (by omega)
      · have : (c :: cs).drop (i2 + 1) = cs.drop i2 := by simp
        rw [this]
        exact ihhead
    · simp at h
      rcases h with ⟨h1, h2⟩
      subst h1; subst h2
      exact ⟨fun j hj => absurd hj (by omega), hm⟩

/-- Config with every pattern left at the zero value. -/
def emptyCfg : RegexConfig := ⟨"", "", "", "", ""⟩

/-- Its compiled form: the empty pattern everywhere except the fixed
registration pattern. -/
def emptyR : CompiledCfg := (compileCfg emptyCfg).getD default

/-- With the all-defaults config, every field of the extracted record is
empty except the client field, which is exactly the registration-code part. -/
theorem parseInvoiceC_emptyR (text : String) :
    parseInvoiceC emptyR text = ⟨"", matriculaOnly text, "", "", ""⟩ := by
  unfold parseInvoiceC matriculaOnly
  rw [show emptyR.reFatura = ⟨.emp, 0⟩ from rfl,
    show emptyR.reCliente = ⟨.emp, 0⟩ from rfl,
    show emptyR.reMatricula = matriculaRe from rfl,
    show emptyR.reDataInicio = ⟨.emp, 0⟩ from rfl,
    show emptyR.reValor = ⟨.emp, 0⟩ from rfl,
    show emptyR.rePrazoMeses = ⟨.emp, 0⟩ from rfl,
    goFindStringSubmatch_emp]
  rcases goFindStringSubmatch matriculaRe text with _ | ⟨a, _ | ⟨m, r⟩⟩ <;> rfl

/-! ### Claims C3, C6, C7, C8, C9, C10 -/

/-- C3 (counterexample): a rule set containing the syntactically invalid
pattern "(" is not rejected at load time — `loadRegexConfig` only checks the
JSON shape and returns the config — even though the pattern does not
compile; the failure happens instead inside `parseInvoice`, i.e. during
extraction (in the program, as a MustCompile panic on the first document a
worker parses). -/
theorem C3_invalid_pattern_passes_load :
    loadRegexConfig (some [("fatura", JsonVal.str "(")]) = .ok ⟨"(", "", "", "", ""⟩ ∧
    compile "(" = none ∧
    parseInvoice "Fatura FT 2023/1 Total 5" ⟨"(", "", "", "", ""⟩ = none :=
  ⟨rfl, rfl, rfl⟩

/-- C3 (amended): a syntactically invalid pattern string is not surfaced at
rule-set load time — loading succeeds for any pattern string whatsoever —
and instead aborts extraction: whenever one of the five configured patterns
fails to compile, `parseInvoice` fails (modelling the per-document
MustCompile panic that kills the process on the first parsed document). -/
theorem C3_invalid_pattern_fails_at_extraction :
    (∀ p : String,
      loadRegexConfig (some [("fatura", JsonVal.str p)]) = .ok ⟨p, "", "", "", ""⟩) ∧
    (∀ (cfg : RegexConfig) (text : String),
      compile cfg.fatura = none ∨ compile cfg.clienteMatricula = none ∨
        compile cfg.dataInicio = none ∨ compile cfg.valor = none ∨
        compile cfg.prazoMeses = none →
      parseInvoice text cfg = none) := by
  constructor
  · intro p
    rfl
  · intro cfg text h
    unfold parseInvoice compileCfg
    rcases hf1 : compile cfg.fatura with _ | a <;>
      rcases hf2 : compile cfg.clienteMatricula with _ | b <;>
      rcases hf3 : compile cfg.dataInicio with _ | d <;>
      rcases hf4 : compile cfg.valor with _ | e <;>
      rcases hf5 : compile cfg.prazoMeses with _ | f <;>
      simp_all

/-- C3 (witness): the amended theorem applied to the invalid pattern "(". -/
theorem C3_invalid_pattern_witness :
    parseInvoice "any" ⟨"(", "", "", "", ""⟩ = none :=
  C3_invalid_pattern_fails_at_extraction.2 ⟨"(", "", "", "", ""⟩ "any" (Or.inl rfl)

/-- C6: for every document text the amount field equals the first capture
group of the valor pattern's match with every '.' character removed and
every other character — commas included — preserved verbatim (it is exactly
the filter dropping dots); if the pattern does not match, or captures no
group, the amount is empty.  The spec's example "1.234,56" normalises to
"1234,56", and the cleaner the program applies is the compiled
backslash-dot pattern, which matches exactly a literal dot. -/
theorem C6_valor_dots_removed :
    (∀ (R : CompiledCfg) (text : String),
      (parseInvoiceC R text).valor =
        match goFindStringSubmatch R.reValor text with
        | _ :: v :: _ => String.mk (v.toList.filter fun x => x ≠ '.')
        | _ => "") ∧
    String.mk (goReplaceAll reValorCleanerDot [] "1.234,56".toList) = "1234,56" ∧
    compile "\\." = some ⟨reValorCleanerDot, 0⟩ := by
  refine ⟨?_, by decide, rfl⟩
  intro R text
  show (match goFindStringSubmatch R.reValor text with
    | _ :: v :: _ => String.mk (goReplaceAll reValorCleanerDot [] v.toList)
    | _ => "") = _
  rcases goFindStringSubmatch R.reValor text with _ | ⟨a, _ | ⟨v, rest⟩⟩ <;>
    simp [reValorCleanerDot, goReplaceAll_lit_filter]

/-- C7: when the dataInicio pattern has at least three capture groups and
matches the text, startDate is group3-group2-group1 (the match result's
entries at indices 3, 2, 1); when the pattern has fewer than three groups or
does not match, startDate is empty. -/
theorem C7_dataInicio_reordered (R : CompiledCfg) (text : String) :
    (3 ≤ R.reDataInicio.nsub → goFindStringSubmatch R.reDataInicio text ≠ [] →
      (parseInvoiceC R text).dataInicio =
        (goFindStringSubmatch R.reDataInicio text).getD 3 "" ++ "-" ++
          (goFindStringSubmatch R.reDataInicio text).getD 2 "" ++ "-" ++
          (goFindStringSubmatch R.reDataInicio text).getD 1 "") ∧
    (R.reDataInicio.nsub < 3 ∨ goFindStringSubmatch R.reDataInicio text = [] →
      (parseInvoiceC R text).dataInicio = "") := by
  have hshow : (parseInvoiceC R text).dataInicio =
      match goFindStringSubmatch R.reDataInicio text with
      | _ :: g1 :: g2 :: g3 :: _ => g3 ++ "-" ++ g2 ++ "-" ++ g1
      | _ => "" := rfl
  constructor
  · intro h3 hne
    have hlen := goFindStringSubmatch_length _ _ hne
    rw [hshow]
    rcases hm : goFindStringSubmatch R.reDataInicio text with
        _ | ⟨a, _ | ⟨b, _ | ⟨c2, _ | ⟨d, rest⟩⟩⟩⟩
    · exact absurd hm hne
    · rw [hm] at hlen; simp at hlen; omega
    · rw [hm] at hlen; simp at hlen; omega
    · rw [hm] at hlen; simp at hlen; omega
    · simp [List.getD]
  · intro h
    rcases h with h | h
    · rw [hshow]
      rcases hm : goFindStringSubmatch R.reDataInicio text with
          _ | ⟨a, _ | ⟨b, _ | ⟨c2, _ | ⟨d, rest⟩⟩⟩⟩ <;> try rfl
      have hne2 : goFindStringSubmatch R.reDataInicio text ≠ [] := by
        rw [hm]; simp
      have hlen := goFindStringSubmatch_length _ _ hne2
      rw [hm] at hlen; simp at hlen; omega
    · rw [hshow, h]

/-- Date config used by the C7 witness: day, month and year groups. -/
def dateCfg : RegexConfig :=
  ⟨"", "", "(\\d\x7b2\x7d)/(\\d\x7b2\x7d)/(\\d\x7b4\x7d)", "", ""⟩

/-- Its compiled form. -/
def dateR : CompiledCfg := (compileCfg dateCfg).getD default

/-- C7 (witness): groups ("26","10","2023") are reassembled as
"2023-10-26". -/
theorem C7_dataInicio_witness :
    3 ≤ dateR.reDataInicio.nsub ∧
    (parseInvoiceC dateR "inicio 26/10/2023 fim").dataInicio = "2023-10-26" := by
  constructor
  · decide
  · rw [(C7_dataInicio_reordered dateR "inicio 26/10/2023 fim").1 (by decide) (by decide)]
    decide

/-- C8: the clientRef field is composed from the configurable
clienteMatricula pattern and the fixed registration-code pattern — the
compiled registration pattern is the same constant whatever the
configuration says — as: both capture, "client/registration"; only one
captures, that capture verbatim; neither captures, empty. -/
theorem C8_clienteMatricula_composed (cfg : RegexConfig) (R : CompiledCfg)
    (text : String) (hc : compileCfg cfg = some R) :
    R.reMatricula = matriculaRe ∧
    (parseInvoiceC R text).clienteMatricula =
      match grp1 (goFindStringSubmatch R.reCliente text),
            grp1 (goFindStringSubmatch R.reMatricula text) with
      | some cl, some m => cl ++ "/" ++ m
      | some cl, none => cl
      | none, some m => m
      | none, none => "" := by
  constructor
  · unfold compileCfg at hc
    rw [show compile matriculaPatternStr = some matriculaRe from rfl] at hc
    rcases hf1 : compile cfg.fatura with _ | a <;> try rw [hf1] at hc
    all_goals (rcases hf2 : compile cfg.clienteMatricula with _ | b <;> try rw [hf2] at hc)
    all_goals (rcases hf3 : compile cfg.dataInicio with _ | d <;> try rw [hf3] at hc)
    all_goals (rcases hf4 : compile cfg.valor with _ | e <;> try rw [hf4] at hc)
    all_goals (rcases hf5 : compile cfg.prazoMeses with _ | f <;> try rw [hf5] at hc)
    all_goals simp at hc
    subst hc
    rfl
  · show (match goFindStringSubmatch R.reCliente text,
        goFindStringSubmatch R.reMatricula text with
      | _ :: cl :: _, _ :: m :: _ => cl ++ "/" ++ m
      | _ :: cl :: _, _ => cl
      | _, _ :: m :: _ => m
      | _, _ => "") = _
    rcases goFindStringSubmatch R.reCliente text with _ | ⟨a1, _ | ⟨cl, r1⟩⟩ <;>
      rcases goFindStringSubmatch R.reMatricula text with _ | ⟨a2, _ | ⟨m, r2⟩⟩ <;>
      rfl

/-- Client config used by the C8 witness. -/
def clientCfg : RegexConfig := ⟨"", "Cliente\\s+(\\w+)", "", "", ""⟩

/-- Its compiled form. -/
def clientR : CompiledCfg := (compileCfg clientCfg).getD default

/-- C8 (witness): with both the client name and the registration code
matching, the field is their slash composition. -/
theorem C8_clienteMatricula_witness :
    compileCfg clientCfg = some clientR ∧
    (parseInvoiceC clientR "Cliente Joao matricula AB-12-CD").clienteMatricula =
      "Joao/AB-12-CD" := by
  refine ⟨rfl, ?_⟩
  rw [(C8_clienteMatricula_composed clientCfg clientR "Cliente Joao matricula AB-12-CD" rfl).2]
  decide

/-- C9 (counterexample): a JSON document omitting every pattern key loads
successfully and the omitted patterns compile (as the empty pattern), but
the claim's "the corresponding record field is always empty" fails for the
clientRef field: with cliente_matricula omitted, the field is still filled
by the fixed registration-code pattern. -/
theorem C9_omitted_key_field_not_always_empty :
    loadRegexConfig (some []) = .ok emptyCfg ∧
    compileCfg emptyCfg = some emptyR ∧
    (parseInvoiceC emptyR "matricula AB-12-CD").clienteMatricula = "AB-12-CD" ∧
    "AB-12-CD" ≠ "" := by
  refine ⟨rfl, rfl, by decide, by decide⟩

/-- C9 (amended): a JSON config that parses but omits pattern keys loads
successfully with the omitted patterns as "", the empty pattern compiles and
matches every text with no capture groups, and with the all-defaults config
the fatura, dataInicio, valor and prazoMeses fields are always empty — but
the clientRef field equals the registration-code part, which the fixed
non-configurable pattern can still fill. -/
theorem C9_omitted_keys_default_behavior (kvs : List (String × JsonVal))
    (cfg : RegexConfig) (hload : loadRegexConfig (some kvs) = .ok cfg) :
    (jsonLookup kvs "fatura" = none → cfg.fatura = "") ∧
    (jsonLookup kvs "cliente_matricula" = none → cfg.clienteMatricula = "") ∧
    (jsonLookup kvs "data_inicio" = none → cfg.dataInicio = "") ∧
    (jsonLookup kvs "valor" = none → cfg.valor = "") ∧
    (jsonLookup kvs "prazo_meses" = none → cfg.prazoMeses = "") ∧
    compile "" = some ⟨.emp, 0⟩ ∧
    (∀ s : String, goFindStringSubmatch ⟨.emp, 0⟩ s = [""]) ∧
    (∀ text : String, parseInvoiceC emptyR text = ⟨"", matriculaOnly text, "", "", ""⟩) := by
  simp only [loadRegexConfig] at hload
  rcases h1 : jsonStringField kvs "fatura" with e | f
  · rw [h1] at hload; simp at hload
  rw [h1] at hload
  rcases h2 : jsonStringField kvs "cliente_matricula" with e | c
  · rw [h2] at hload; simp at hload
  rw [h2] at hload
  rcases h3 : jsonStringField kvs "data_inicio" with e | d
  · rw [h3] at hload; simp at hload
  rw [h3] at hload
  rcases h4 : jsonStringField kvs "valor" with e | v
  · rw [h4] at hload; simp at hload
  rw [h4] at hload
  rcases h5 : jsonStringField kvs "prazo_meses" with e | p
  · rw [h5] at hload; simp at hload
  rw [h5] at hload
  simp only [Except.ok.injEq] at hload
  subst hload
  refine ⟨?_, ?_, ?_, ?_, ?_, rfl, goFindStringSubmatch_emp, parseInvoiceC_emptyR⟩
  · intro hnone
    unfold jsonStringField at h1
    rw [hnone] at h1
    simpa using h1.symm
  · intro hnone
    unfold jsonStringField at h2
    rw [hnone] at h2
    simpa using h2.symm
  · intro hnone
    unfold jsonStringField at h3
    rw [hnone] at h3
    simpa using h3.symm
  · intro hnone
    unfold jsonStringField at h4
    rw [hnone] at h4
    simpa using h4.symm
  · intro hnone
    unfold jsonStringField at h5
    rw [hnone] at h5
    simpa using h5.symm

/-- C9 (witness): the amended theorem applied to a document assigning only
the valor key; the omitted fatura key gives the empty pattern string. -/
theorem C9_omitted_keys_witness :
    loadRegexConfig (some [("valor", JsonVal.str "V")]) = .ok ⟨"", "", "", "V", ""⟩ ∧
    (⟨"", "", "", "V", ""⟩ : RegexConfig).fatura = "" ∧
    (parseInvoiceC emptyR "texto plano").fatura = "" := by
  refine ⟨rfl, ?_, ?_⟩
  · exact (C9_omitted_keys_default_behavior [("valor", JsonVal.str "V")] _ rfl).1 rfl
  · rw [(C9_omitted_keys_default_behavior [] _ rfl).2.2.2.2.2.2.2 "texto plano"]

/-- C10: the match used for every field is the leftmost one: `findFrom`
returns the preferred match of the first start position that matches at all,
every earlier position failing outright, and `goFindStringSubmatch` (from
which `parseInvoiceC` reads all five fields) reports exactly that match's
full text and captures — so occurrences after the first never influence the
record. -/
theorem C10_leftmost_match_only :
    (∀ (p : Pat) (s : List Char) (r : List Char × List (Nat × List Char)) (i : Nat),
      findFrom p s = some (r, i) →
      (∀ j, j < i → matchC p (s.drop j) = []) ∧ (matchC p (s.drop i)).head? = some r) ∧
    (∀ (re : Re) (s : String) (r : List Char × List (Nat × List Char)) (i : Nat),
      findFrom re.pat s.toList = some (r, i) →
      goFindStringSubmatch re s =
        String.mk ((s.toList.drop i).take ((s.toList.drop i).length - r.1.length)) ::
          ((List.range re.nsub).map fun k => String.mk ((capLookup r.2 (k + 1)).getD []))) := by
  constructor
  · exact findFrom_leftmost
  · intro re s r i h
    unfold goFindStringSubmatch
    rw [h]

/-- Config whose fatura pattern has two occurrences in the witness text. -/
def digitCfg : RegexConfig := ⟨"a(\\d)", "", "", "", ""⟩

/-- Its compiled form. -/
def digitR : CompiledCfg := (compileCfg digitCfg).getD default

/-- C10 (witness): on "xa1ya2" the pattern a(digit) matches at positions 1
and 4; the record field is taken from the leftmost occurrence ("1", not
"2"), and position 0 indeed has no match. -/
theorem C10_leftmost_witness :
    matchC digitR.reFatura.pat "xa1ya2".toList = [] ∧
    (parseInvoiceC digitR "xa1ya2").fatura = "1" := by
  constructor
  · have h := (C10_leftmost_match_only.1 digitR.reFatura.pat "xa1ya2".toList
      (['y', 'a', '2'], [(1, ['1'])]) 1 (by decide)).1 0 (by omega)
    simpa using h
  · decide

/-! ### The worker pool (main.go lines 83-106, 151-164)

The pool is modelled as an interleaving state machine.  Worker identity is
irrelevant to every observable (jobs are claimed from one shared channel and
the counters are atomic), so the state keeps only how many workers are idle
or terminated plus the list of in-flight jobs; a schedule chooses which
enabled transition fires next.  `claimed` and `completedJobs` are ghost
logs of the claim and completion events. -/

/-- A scheduler choice: an idle worker claims the next job (or terminates if
the closed queue is empty), or the `i`-th in-flight job finishes its
extract-then-parse step. -/
inductive Act where
  | claim
  | complete (i : Nat)
  deriving DecidableEq, Repr

/-- Pool state: the job queue (closed after preload), worker counts, the
in-flight jobs, the two atomic counters, the result channel's contents, and
the two ghost logs. -/
structure PoolState where
  queue : List String
  idle : Nat
  busy : List String
  done : Nat
  processed : Nat
  errors : Nat
  results : List Invoice
  claimed : List String
  completedJobs : List String
  deriving DecidableEq, Repr

/-- Initial state: queue preloaded with every document handle, `W` idle
workers, zero counters (main.go lines 83-97). -/
def initPool (jobs : List String) (W : Nat) : PoolState :=
  ⟨jobs, W, [], 0, 0, 0, [], [], []⟩

/-- One scheduler-chosen transition.  A worker that claims from the
exhausted queue terminates (`range` over a closed channel ends).  Completing
a job runs the worker body of main.go lines 153-163: failed extraction
increments the error counter and produces nothing; successful extraction
parses the invoice — `none` there models the MustCompile panic killing the
process — sends it on the results channel and increments the processed
counter.  Choices that name no enabled worker leave the state unchanged. -/
def stepPool (extract : String → Option String) (cfg : RegexConfig)
    (s : PoolState) : Act → Option PoolState
  | .claim =>
    if s.idle = 0 then some s
    else
      match s.queue with
      | [] => some { s with idle := s.idle - 1, done := s.done + 1 }
      | j :: rest =>
        some { s with queue := rest, idle := s.idle - 1, busy := s.busy ++ [j],
                      claimed := s.claimed ++ [j] }
  | .complete i =>
    if hi : i < s.busy.length then
      match extract s.busy[i] with
      | none =>
        some { s with busy := s.busy.eraseIdx i, idle := s.idle + 1,
                      errors := s.errors + 1,
                      completedJobs := s.completedJobs ++ [s.busy[i]] }
      | some text =>
        match parseInvoice text cfg with
        | none => none
        | some inv =>
          some { s with busy := s.busy.eraseIdx i, idle := s.idle + 1,
                        processed := s.processed + 1, results := s.results ++ [inv],
                        completedJobs := s.completedJobs ++ [s.busy[i]] }
    else some s

/-- Run a whole schedule. -/
def runPool (extract : String → Option String) (cfg : RegexConfig) :
    List Act → PoolState → Option PoolState
  | [], s => some s
  | a :: rest, s => (stepPool extract cfg s a).bind (runPool extract cfg rest)

/-- The run invariant: claims are the consumed prefix of the job list; every
claim is in flight or completed; workers are conserved; a terminated worker
means the queue was empty; the counters count completed extract successes
and failures; the results are the records of the completed successes in
completion order. -/
structure PoolInv (jobs : List String) (W : Nat) (extract : String → Option String)
    (cfg : RegexConfig) (s : PoolState) : Prop where
  hqueue : s.claimed ++ s.queue = jobs
  hperm : s.claimed.Perm (s.completedJobs ++ s.busy)
  hw : s.idle + s.busy.length + s.done = W
  hdone : 0 < s.done → s.queue = []
  hproc : s.processed = s.completedJobs.countP fun j => (extract j).isSome
  herr : s.errors = s.completedJobs.countP fun j => (extract j).isNone
  hres : s.results = s.completedJobs.filterMap fun j =>
    match extract j with
    | some t => parseInvoice t cfg
    | none => none

theorem initPool_inv (jobs : List String) (W : Nat) (extract : String → Option String)
    (cfg : RegexConfig) : PoolInv jobs W extract cfg (initPool jobs W) := by
  refine ⟨?_, ?_, ?_, ?_, ?_, ?_, ?_⟩ <;> simp [initPool]

theorem busy_erase_perm {l : List String} {i : Nat} (hi : i < l.length) :
    l.Perm (l[i] :: l.eraseIdx i) := by
  have h2 : (l.take i ++ l[i] :: l.drop (i + 1)).Perm
      (l[i] :: (l.take i ++ l.drop (i + 1))) := List.perm_middle
  rw [← List.eraseIdx_eq_take_drop_succ] at h2
  have h1 : l.take i ++ l[i] :: l.drop (i + 1) = l := by
    rw [← List.drop_eq_getElem_cons hi, List.take_append_drop]
  rw [h1] at h2
  exact h2

theorem stepPool_inv {jobs : List String} {W : Nat} {extract : String → Option String}
    {cfg : RegexConfig} {s s2 : PoolState} {a : Act}
    (hinv : PoolInv jobs W extract cfg s)
    (hstep : stepPool extract cfg s a = some s2) :
    PoolInv jobs W extract cfg s2 := by
  obtain ⟨hqueue, hperm, hw, hdone, hproc, herr, hres⟩ := hinv
  cases a with
  | claim =>
    unfold stepPool at hstep
    by_cases h0 : s.idle = 0
    · rw [if_pos h0] at hstep
      simp only [Option.some.injEq] at hstep
      subst hstep
      exact ⟨hqueue, hperm, hw, hdone, hproc, herr, hres⟩
    · rw [if_neg h0] at hstep
      rcases hq : s.queue with _ | ⟨j, rest⟩ <;> rw [hq] at hstep <;>
        simp only [Option.some.injEq] at hstep <;> subst hstep
      · exact ⟨by simpa [hq] using hqueue, hperm, by simp; omega,
          fun _ => rfl, hproc, herr, hres⟩
      · refine ⟨?_, ?_, by simp; omega, ?_, hproc, herr, hres⟩
        · show (s.claimed ++ [j]) ++ rest = jobs
          rw [hq] at hqueue
          simpa using hqueue
        · show (s.claimed ++ [j]).Perm (s.completedJobs ++ (s.busy ++ [j]))
          have h1 := hperm.append_right [j]
          rw [List.append_assoc] at h1
          exact h1
        · intro hd0
          exact absurd (hdone hd0) (by rw [hq]; simp)
  | complete i =>
    simp only [stepPool] at hstep
    by_cases hi : i < s.busy.length
    · rw [dif_pos hi] at hstep
      rcases hx : extract s.busy[i] with _ | t <;> rw [hx] at hstep
      · simp only [Option.some.injEq] at hstep
        subst hstep
        refine ⟨hqueue, ?_, by simp [List.length_eraseIdx, hi]; omega, hdone, ?_, ?_, ?_⟩
        · show s.claimed.Perm ((s.completedJobs ++ [s.busy[i]]) ++ s.busy.eraseIdx i)
          have h1 := hperm.trans ((busy_erase_perm hi).append_left s.completedJobs)
          simpa using h1
        · show s.processed = (s.completedJobs ++ [s.busy[i]]).countP _
          rw [hproc]
          simp [List.countP_append, List.countP_cons, hx]
        · show s.errors + 1 = (s.completedJobs ++ [s.busy[i]]).countP _
          rw [herr]
          simp [List.countP_append, List.countP_cons, hx]
        · show s.results = (s.completedJobs ++ [s.busy[i]]).filterMap _
          rw [hres]
          simp [List.filterMap_append, hx]
      · split at hstep
        · rename_i heq
          simp at heq
        · rename_i text heq
          simp only [Option.some.injEq] at heq
          subst heq
          split at hstep
          · simp at hstep
          · rename_i inv hp
            simp only [Option.some.injEq] at hstep
            subst hstep
            refine ⟨hqueue, ?_, by simp [List.length_eraseIdx, hi]; omega, hdone, ?_, ?_, ?_⟩
            · show s.claimed.Perm ((s.completedJobs ++ [s.busy[i]]) ++ s.busy.eraseIdx i)
              have h1 := hperm.trans ((busy_erase_perm hi).append_left s.completedJobs)
              simpa using h1
            · show s.processed + 1 = (s.completedJobs ++ [s.busy[i]]).countP _
              rw [hproc]
              simp [List.countP_append, List.countP_cons, hx]
            · show s.errors = (s.completedJobs ++ [s.busy[i]]).countP _
              rw [herr]
              simp [List.countP_append, List.countP_cons, hx]
            · show s.results ++ [inv] = (s.completedJobs ++ [s.busy[i]]).filterMap _
              rw [hres]
              simp [List.filterMap_append, hx, hp]
    · rw [dif_neg hi] at hstep
      simp only [Option.some.injEq] at hstep
      subst hstep
      exact ⟨hqueue, hperm, hw, hdone, hproc, herr, hres⟩

theorem runPool_inv {jobs : List String} {W : Nat} {extract : String → Option String}
    {cfg : RegexConfig} :
    ∀ (sched : List Act) (s s2 : PoolState),
      PoolInv jobs W extract cfg s →
      runPool extract cfg sched s = some s2 →
      PoolInv jobs W extract cfg s2 := by
  intro sched
  induction sched with
  | nil =>
    intro s s2 h hr
    unfold runPool at hr
    simp only [Option.some.injEq] at hr
    subst hr
    exact h
  | cons a rest ih =>
    intro s s2 h hr
    unfold runPool at hr
    rcases hs : stepPool extract cfg s a with _ | s1 <;> rw [hs] at hr
    · simp at hr
    · simp only [Option.some_bind] at hr
      exact ih s1 s2 (stepPool_inv h hs) hr

theorem countP_isSome_add_isNone (extract : String → Option String) (l : List String) :
    l.countP (fun j => (extract j).isSome) + l.countP (fun j => (extract j).isNone) =
      l.length := by
  induction l with
  | nil => simp
  | cons x xs ih =>
    rcases h : extract x with _ | t <;> simp [List.countP_cons, h] <;> omega

/-- At the join barrier every claim has completed: the claim log is exactly
the job list and the completion log is a permutation of it. -/
theorem pool_completed_perm {jobs : List String} {W : Nat}
    {extract : String → Option String} {cfg : RegexConfig}
    {sched : List Act} {s2 : PoolState}
    (hW : 1 ≤ W)
    (hrun : runPool extract cfg sched (initPool jobs W) = some s2)
    (hidle : s2.idle = 0) (hbusy : s2.busy = []) :
    s2.claimed = jobs ∧ s2.completedJobs.Perm jobs := by
  have hinv := runPool_inv sched _ s2 (initPool_inv jobs W extract cfg) hrun
  have hd0 : 0 < s2.done := by
    have h := hinv.hw
    rw [hidle, hbusy] at h
    simp at h
    omega
  have hq := hinv.hdone hd0
  have hclaimed : s2.claimed = jobs := by
    have h := hinv.hqueue
    rw [hq] at h
    simpa using h
  refine ⟨hclaimed, ?_⟩
  have h := hinv.hperm
  rw [hbusy, hclaimed] at h
  simpa using h.symm

/-- C4: for every list of J document handles and worker count W ≥ 1, any
interleaving of the pool that reaches the join barrier (all W workers
terminated: none idle, none busy) has claimed each handle exactly once —
the ghost claim log is the job list itself — and the final statistics
satisfy processed + errors = J, with the processed counter counting exactly
the jobs whose text extraction succeeds and the error counter those whose
extraction fails. -/
theorem C4_pool_processed_plus_errors (jobs : List String) (W : Nat)
    (extract : String → Option String) (cfg : RegexConfig)
    (sched : List Act) (s2 : PoolState)
    (hW : 1 ≤ W)
    (hrun : runPool extract cfg sched (initPool jobs W) = some s2)
    (hidle : s2.idle = 0) (hbusy : s2.busy = []) :
    s2.processed + s2.errors = jobs.length ∧
    s2.claimed = jobs ∧
    s2.processed = jobs.countP (fun j => (extract j).isSome) ∧
    s2.errors = jobs.countP (fun j => (extract j).isNone) := by
  have hinv := runPool_inv sched _ s2 (initPool_inv jobs W extract cfg) hrun
  obtain ⟨hclaimed, hcperm⟩ := pool_completed_perm hW hrun hidle hbusy
  have hproc2 : s2.processed = jobs.countP (fun j => (extract j).isSome) := by
    rw [hinv.hproc]
    exact hcperm.countP_eq _
  have herr2 : s2.errors = jobs.countP (fun j => (extract j).isNone) := by
    rw [hinv.herr]
    exact hcperm.countP_eq _
  refine ⟨?_, hclaimed, hproc2, herr2⟩
  rw [hproc2, herr2]
  exact countP_isSome_add_isNone extract jobs

/-- C5: in any interleaving that reaches the join barrier, with a
configuration whose patterns compile, the records sent on the results
channel are exactly — as a multiset — one record per job whose text
extraction succeeds, namely the total field extractor applied to its text
(a record is produced even when every field is empty); a job whose
extraction fails increments the error counter and contributes no record at
all. -/
theorem C5_success_record_failure_absent (jobs : List String) (W : Nat)
    (extract : String → Option String) (cfg : RegexConfig) (R : CompiledCfg)
    (sched : List Act) (s2 : PoolState)
    (hcfg : compileCfg cfg = some R)
    (hW : 1 ≤ W)
    (hrun : runPool extract cfg sched (initPool jobs W) = some s2)
    (hidle : s2.idle = 0) (hbusy : s2.busy = []) :
    s2.results.Perm (jobs.filterMap fun j => (extract j).map fun t => parseInvoiceC R t) ∧
    s2.errors = jobs.countP fun j => (extract j).isNone := by
  have hinv := runPool_inv sched _ s2 (initPool_inv jobs W extract cfg) hrun
  obtain ⟨hclaimed, hcperm⟩ := pool_completed_perm hW hrun hidle hbusy
  constructor
  · rw [hinv.hres]
    have hfun : (fun j => match extract j with
        | some t => parseInvoice t cfg
        | none => none) = fun j => (extract j).map fun t => parseInvoiceC R t := by
      funext j
      rcases h : extract j with _ | t
      · simp
      · simp [parseInvoice, hcfg]
    rw [hfun]
    exact hcperm.filterMap _
  · rw [hinv.herr]
    exact hcperm.countP_eq _

/-- Jobs of the concrete pool run used by the C4 and C5 witnesses. -/
def wJobs : List String := ["a.pdf", "b.pdf", "c.pdf"]

/-- Extraction collaborator of the witness run: b.pdf is unreadable. -/
def wExtract : String → Option String :=
  fun j => if j = "b.pdf" then none else some "texto"

/-- A two-worker interleaving of the three jobs: both workers claim, the
first job completes, the free worker claims the last job, the failing job
and the last job complete, and both workers terminate on the empty queue. -/
def wSched : List Act :=
  [.claim, .claim, .complete 0, .claim, .complete 0, .complete 0, .claim, .claim]

/-- The final state that the witness run reaches. -/
def wFinal : PoolState :=
  ⟨[], 0, [], 2, 2, 1,
    [⟨"", "", "", "", ""⟩, ⟨"", "", "", "", ""⟩],
    ["a.pdf", "b.pdf", "c.pdf"], ["a.pdf", "b.pdf", "c.pdf"]⟩

/-- C4 (witness): the conservation theorem applied to the concrete
two-worker run over three jobs with one unreadable document. -/
theorem C4_pool_witness :
    wFinal.processed + wFinal.errors = wJobs.length ∧ wFinal.claimed = wJobs := by
  have h := C4_pool_processed_plus_errors wJobs 2 wExtract emptyCfg wSched wFinal
    (by omega) (by decide) rfl rfl
  exact ⟨h.1, h.2.1⟩

/-- C5 (witness): the same run's records are one (all-empty) record per
readable job, with the unreadable job absent and counted as the error. -/
theorem C5_pool_witness :
    wFinal.results.Perm
      (wJobs.filterMap fun j => (wExtract j).map fun t => parseInvoiceC emptyR t) ∧
    wFinal.errors = wJobs.countP fun j => (wExtract j).isNone := by
  exact C5_success_record_failure_absent wJobs 2 wExtract emptyCfg emptyR wSched wFinal
    rfl (by omega) (by decide) rfl rfl

end PdfCsv
